import Mathlib

/-!
# goplts: a verification development

Two programs are embedded here.

* `gopl/ch07/match/match.go`: a longest-common-prefix matcher (`cmp`) and the
  `main` that ranks a list of names against a search key.
* `gopl/ch03/mandelbrot/mandelbrot.go`: the coordinate mapper (`xCord`,
  `yCord`), the escape evaluator (`mandelbrot`), the super-sampler
  (`superSampling`) and the concurrent pipeline (`compute`).

Go strings are byte sequences, Go `int` is the 64-bit two's complement
integer, a run-time panic is the value `none`.
-/

/-! ## Part 1: `match.go` -/

namespace GoMatch

/-- A Go string is a sequence of bytes. -/
abbrev GoString := List (Fin 256)

/-- `func min(x, y int) int`. -/
def min (x y : Nat) : Nat :=
  if x < y then x else y

/-- The slice expression `s[:n]`; it panics when `n` exceeds `len(s)`. -/
def slicePrefix (s : GoString) (n : Nat) : Option GoString :=
  if n ≤ s.length then some (s.take n) else none

/-- The loop `for i := 0; i < minLen; i++ { if word[i] != key[i] { break }; matchLen++ }`
of `cmp`.  The first argument is `minLen - i`, the number of iterations the
loop condition still allows; an index expression out of range panics. -/
def cmpLoop (word key : GoString) : Nat → Nat → Nat → Option Nat
  | 0, _, matchLen => some matchLen
  | left + 1, i, matchLen =>
    match word[i]?, key[i]? with
    | some a, some b =>
      if a ≠ b then some matchLen
      else cmpLoop word key left (i + 1) (matchLen + 1)
    | _, _ => none

/-- `func cmp(word, key string) int`. -/
def cmp (word key : GoString) : Option Nat :=
  let minLen := min word.length key.length
  match slicePrefix word minLen, slicePrefix key minLen with
  | some w, some k =>
    if w = k then some minLen
    else cmpLoop word key minLen 0 0
  | _, _ => none

/-- `type result struct { str string; length int }`. -/
structure result where
  str : GoString
  length : Nat
  deriving DecidableEq, Repr

/-- The inner loop of insertion sort: the element is moved left while it is
`less` than its left neighbour (`sorted` is held right to left). -/
def insertLeft {α : Type} (less : α → α → Bool) (x : α) : List α → List α
  | [] => [x]
  | y :: rest => if less x y then y :: insertLeft less x rest else x :: y :: rest

/-- `sort.Slice` of the standard library on a slice of fewer than 12 elements,
where it runs insertion sort: element `i` is swapped towards the front while
`less(i, i-1)` holds. -/
def sortSlice {α : Type} (less : α → α → Bool) (xs : List α) : List α :=
  (xs.foldl (fun sortedRev x => insertLeft less x sortedRev) []).reverse

/-- The range loop of `main`: every name whose match length is positive is
appended to `results`. -/
def collect (searchKey : GoString) : List GoString → List result → Option (List result)
  | [], results => some results
  | name :: rest, results =>
    match cmp name searchKey with
    | none => none
    | some l =>
      if l > 0 then collect searchKey rest (results ++ [⟨name, l⟩])
      else collect searchKey rest results

/-- The literal `"name1"`. -/
def sName1 : GoString := [110, 97, 109, 101, 49]
/-- The literal `"name3"`. -/
def sName3 : GoString := [110, 97, 109, 101, 51]
/-- The literal `"Yu"`. -/
def sYu : GoString := [89, 117]
/-- The literal `"Yur"`. -/
def sYur : GoString := [89, 117, 114]
/-- The literal `"Yury"`. -/
def sYury : GoString := [89, 117, 114, 121]

/-- The slice `names` of `main`. -/
def names : List GoString := [sName1, sYu, sName3, sYury, sName3, sYur, []]

/-- The string `searchKey` of `main`. -/
def searchKey : GoString := sYury

/-- The value `main` prints: the collected results sorted by decreasing
length. -/
def main : Option (List result) :=
  (collect searchKey names []).map
    (sortSlice (fun a b => decide (a.length > b.length)))

end GoMatch

/-! ## Part 2: `mandelbrot.go` -/

namespace Mandelbrot

/-! ### Machine integers and floating-point numbers -/

/-- The value a Go `int` (64 bit, two's complement) holds after an operation
whose mathematical result is `n`. -/
def wrap64 (n : Int) : Int :=
  (n + 2 ^ 63) % 2 ^ 64 - 2 ^ 63

/-- The values of a Go `int`. -/
def IsInt64 (n : Int) : Prop :=
  -2 ^ 63 ≤ n ∧ n < 2 ^ 63

instance (n : Int) : Decidable (IsInt64 n) :=
  inferInstanceAs (Decidable (-2 ^ 63 ≤ n ∧ n < 2 ^ 63))

/-- The `float64` operations the program uses, on a carrier `F` of `float64`
values.  The program is embedded over an arbitrary implementation of them;
theorems name the arithmetic facts they rely on.

* `ofRat q` is the conversion to `float64` of the exact number `q`: of an
  integer (`float64(x)`) or of an untyped constant (`xmin`, `2`, `contrast`),
* `add`, `sub`, `mul`, `div` are `+ - * /` on `float64`,
* `lt a b` is the comparison `a < b`,
* `hypot` is `math.Hypot` (`cmplx.Abs(v)` is `math.Hypot(real(v), imag(v))`),
* `log` is `math.Log`,
* `toUint16` is the conversion `uint16(x)`. -/
structure FloatOps (F : Type) where
  ofRat : ℚ → F
  add : F → F → F
  sub : F → F → F
  mul : F → F → F
  div : F → F → F
  lt : F → F → Bool
  hypot : F → F → F
  log : F → F
  toUint16 : F → Fin 65536

/-- The lookup `htcmap.AsUInt8(value, min, max)` of the external package
`github.com/krasoffski/gomill/htcmap`, which returns three `uint8`. -/
abbrev Gradient (F : Type) := F → F → F → Fin 256 × Fin 256 × Fin 256

/-- The values of `color.Color` the program builds: `color.RGBA`,
`color.RGBA64` and `color.Gray16`. -/
inductive Color where
  | RGBA (r g b a : Fin 256)
  | RGBA64 (r g b a : Fin 65536)
  | Gray16 (y : Fin 65536)
  deriving DecidableEq, Repr

/-- The method `RGBA()` of `color.Color`: the four channels as 16 bit values
(`color.RGBA` widens each 8 bit channel `c` to `c | c<<8`). -/
def Color.channels : Color → Nat × Nat × Nat × Nat
  | .RGBA r g b a => (r.val * 257, g.val * 257, b.val * 257, a.val * 257)
  | .RGBA64 r g b a => (r.val, g.val, b.val, a.val)
  | .Gray16 y => (y.val, y.val, y.val, 65535)

/-- `color.Black`, which is `color.Gray16{0}`. -/
def Color.Black : Color := .Gray16 0

/-! ### Constants and types of the program -/

/-- `const xmin = -2.2`. -/
def xmin : ℚ := -22 / 10
/-- `const ymin = -1.2`. -/
def ymin : ℚ := -12 / 10
/-- `const xmax = +1.2`. -/
def xmax : ℚ := 12 / 10
/-- `const ymax = +1.2`. -/
def ymax : ℚ := 12 / 10

/-- `type point struct { x, y int }`. -/
structure point where
  x : Int
  y : Int
  deriving DecidableEq, Repr

/-- `type pixel struct { point; c color.Color }`. -/
structure pixel where
  toPoint : point
  c : Color
  deriving DecidableEq, Repr

/-- A `complex128`: its real and imaginary `float64` parts. -/
structure Complex128 (F : Type) where
  re : F
  im : F

/-! ### The coordinate mapper -/

/-- `func xCord(x, width, factor int) float64`; `xmax-xmin` is a constant
expression, evaluated exactly and then converted. -/
def xCord {F : Type} (O : FloatOps F) (x width factor : Int) : F :=
  O.add
    (O.mul (O.div (O.ofRat x) (O.ofRat (wrap64 (width * factor)))) (O.ofRat (xmax - xmin)))
    (O.ofRat xmin)

/-- `func yCord(y, height, factor int) float64`. -/
def yCord {F : Type} (O : FloatOps F) (y height factor : Int) : F :=
  O.add
    (O.mul (O.div (O.ofRat y) (O.ofRat (wrap64 (height * factor)))) (O.ofRat (ymax - ymin)))
    (O.ofRat ymin)

/-! ### The escape evaluator -/

/-- `const iterations = 255`. -/
def iterations : Nat := 255
/-- `const contrast = 15`. -/
def contrast : Nat := 15

/-- The product `x * y` of two `complex128`. -/
def cmul {F : Type} (O : FloatOps F) (x y : Complex128 F) : Complex128 F :=
  ⟨O.sub (O.mul x.re y.re) (O.mul x.im y.im), O.add (O.mul x.re y.im) (O.mul x.im y.re)⟩

/-- The sum `x + y` of two `complex128`. -/
def cadd {F : Type} (O : FloatOps F) (x y : Complex128 F) : Complex128 F :=
  ⟨O.add x.re y.re, O.add x.im y.im⟩

/-- The `uint8` product `n * contrast` of the non-smooth branch, which wraps
modulo 256 before it is converted to `float64`. -/
def plainStep (n : Nat) : Nat :=
  (n * contrast) % 256

/-- The assignment to `step` in the escape branch of `mandelbrot`:
`(float64(n) + 1 - math.Log(math.Log(vAbs))/math.Log(2)) * contrast` when
`smooth`, `float64(n * contrast)` otherwise. -/
def stepOf {F : Type} (O : FloatOps F) (smooth : Bool) (n : Nat) (vAbs : F) : F :=
  if smooth then
    O.mul
      (O.sub (O.add (O.ofRat n) (O.ofRat 1))
        (O.div (O.log (O.log vAbs)) (O.log (O.ofRat 2))))
      (O.ofRat contrast)
  else
    O.ofRat (plainStep n)

/-- The loop `for n := uint8(0); n < iterations; n++` of `mandelbrot`.  The
first argument is `iterations - n`.  The result is `some (n, step)` when the
escape branch is taken at index `n` with color position `step`, and `none`
when the loop runs to its end. -/
def escape {F : Type} (O : FloatOps F) (z : Complex128 F) (smooth : Bool) (skip : Nat) :
    Nat → Nat → Complex128 F → Option (Nat × F)
  | 0, _, _ => none
  | left + 1, n, v =>
    let v1 := cadd O (cmul O v v) z
    let vAbs := O.hypot v1.re v1.im
    if O.lt (O.ofRat 2) vAbs && decide (n > skip) then
      some (n, stepOf O smooth n vAbs)
    else
      escape O z smooth skip left (n + 1) v1

/-- `func mandelbrot(z complex128, smooth bool) color.Color`. -/
def mandelbrot {F : Type} (O : FloatOps F) (asUInt8 : Gradient F)
    (z : Complex128 F) (smooth : Bool) : Color :=
  let skip : Nat := if smooth then 2 else 0
  match escape O z smooth skip iterations 0 ⟨O.ofRat 0, O.ofRat 0⟩ with
  | some (_, step) =>
    let rgb := asUInt8 step (O.ofRat 0) (O.ofRat iterations)
    .RGBA rgb.1 rgb.2.1 rgb.2.2 255
  | none => Color.Black

/-! ### The super-sampler -/

/-- The assignment `subPixels[iy*factor+ix] = mandelbrot(complex(xCords[ix], yCords[iy]), smooth)`;
an index out of range panics. -/
def storeSub {F : Type} (O : FloatOps F) (asUInt8 : Gradient F) (smooth : Bool)
    (factor : Int) (xCords yCords : List F) (iy ix : Nat)
    (subPixels : List (Option Color)) : Option (List (Option Color)) :=
  let idx := wrap64 (wrap64 ((iy : Int) * factor) + (ix : Int))
  match xCords[ix]?, yCords[iy]? with
  | some x, some y =>
    if 0 ≤ idx ∧ idx.toNat < subPixels.length then
      some (subPixels.set idx.toNat (some (mandelbrot O asUInt8 ⟨x, y⟩ smooth)))
    else none
  | _, _ => none

/-- The body of the loop `for _, c := range subPixels`: the method call
`c.RGBA()` on an element that was never assigned (a nil interface) panics. -/
def accumulate {F : Type} (O : FloatOps F) (factor2 : F) (acc : F × F × F)
    (c : Option Color) : Option (F × F × F) :=
  match c with
  | none => none
  | some col =>
    let ch := col.channels
    some (O.add acc.1 (O.div (O.ofRat ch.1) factor2),
          O.add acc.2.1 (O.div (O.ofRat ch.2.1) factor2),
          O.add acc.2.2 (O.div (O.ofRat ch.2.2.1) factor2))

/-- The slice `subPixels` of `superSampling` when its nested loops are done:
`make` panics on a negative length, and the loops store one evaluation of
`mandelbrot` at every `(xCords[ix], yCords[iy])`. -/
def subSamples {F : Type} (O : FloatOps F) (asUInt8 : Gradient F)
    (p : point) (width height factor : Int) (smooth : Bool) : Option (List (Option Color)) :=
  if factor < 0 ∨ wrap64 (factor * factor) < 0 then none
  else
    let f := factor.toNat
    let xCords := (List.range f).map
      (fun (i : Nat) => xCord O (wrap64 (p.x + (i : Int))) width factor)
    let yCords := (List.range f).map
      (fun (i : Nat) => yCord O (wrap64 (p.y + (i : Int))) height factor)
    let empty : List (Option Color) := List.replicate (wrap64 (factor * factor)).toNat none
    (List.range f).foldlM
      (fun sub iy => (List.range f).foldlM
        (fun sub ix => storeSub O asUInt8 smooth factor xCords yCords iy ix sub) sub)
      empty

/-- The loop `for _, c := range subPixels` of `superSampling` and the color it
returns, `color.RGBA64{uint16(rAvg), uint16(gAvg), uint16(bAvg), 0xFFFF}`. -/
def average {F : Type} (O : FloatOps F) (factor : Int)
    (subPixels : List (Option Color)) : Option Color :=
  let factor2 := O.ofRat (wrap64 (factor * factor))
  match subPixels.foldlM (accumulate O factor2) (O.ofRat 0, O.ofRat 0, O.ofRat 0) with
  | none => none
  | some avg =>
    some (.RGBA64 (O.toUint16 avg.1) (O.toUint16 avg.2.1) (O.toUint16 avg.2.2) 65535)

/-- `func superSampling(p *point, width, height, factor int, smooth bool) color.Color`. -/
def superSampling {F : Type} (O : FloatOps F) (asUInt8 : Gradient F)
    (p : point) (width height factor : Int) (smooth : Bool) : Option Color :=
  match subSamples O asUInt8 p width height factor smooth with
  | none => none
  | some subPixels => average O factor subPixels

/-! ### The pipeline -/

/-- The goroutine that sends the points: `outer py` stands before the test
`py < height*factor`, `inner py px` before the test `px < width*factor`, and
`closed` is reached when `close(points)` has run. -/
inductive Gen where
  | outer (py : Int)
  | inner (py px : Int)
  | closed
  deriving DecidableEq, Repr

/-- A worker goroutine: blocked in `<-points`, blocked in `pixels <- ...` with
the pixel it computed, or returned. -/
inductive Worker where
  | receiving
  | sending (px : pixel)
  | done
  deriving DecidableEq, Repr

/-- A state of `compute` together with its consumer: the generator, the
workers, the buffer of the channel `pixels`, whether `pixels` is closed, and
the pixels the consumer has received so far, in arrival order. -/
structure State where
  gen : Gen
  workers : List Worker
  pixels : List pixel
  pixelsClosed : Bool
  received : List pixel

/-- The arguments of `compute`, with the color computation `sample`
(`superSampling(p, width, height, factor, smooth)`, `none` for a panic). -/
structure Config where
  width : Int
  height : Int
  factor : Int
  workers : Int
  sample : point → Option Color

/-- The state in which `compute` returns the channel: no point sent, every
worker started, the buffer empty. -/
def Config.init (c : Config) : State :=
  { gen := .outer 0
    workers := List.replicate c.workers.toNat .receiving
    pixels := []
    pixelsClosed := false
    received := [] }

/-- The pixel a worker builds from the point `p`:
`&pixel{point{p.x / factor, p.y / factor}, c}`. -/
def Config.mkPixel (c : Config) (p : point) (col : Color) : pixel :=
  ⟨⟨wrap64 (Int.tdiv p.x c.factor), wrap64 (Int.tdiv p.y c.factor)⟩, col⟩

/-- One step of the pipeline.  The channel `points` is unbuffered, so a send
and a receive on it are one step (`handoff`); the channel `pixels` has a
buffer of `workers` elements. -/
inductive Step (c : Config) : State → State → Prop where
  | outerEnter (s : State) (py : Int) :
      s.gen = .outer py → py < wrap64 (c.height * c.factor) →
      Step c s { s with gen := .inner py 0 }
  | outerExit (s : State) (py : Int) :
      s.gen = .outer py → ¬ py < wrap64 (c.height * c.factor) →
      Step c s { s with gen := .closed }
  | innerExit (s : State) (py px : Int) :
      s.gen = .inner py px → ¬ px < wrap64 (c.width * c.factor) →
      Step c s { s with gen := .outer (wrap64 (py + c.factor)) }
  | handoff (s : State) (py px : Int) (i : Nat) (col : Color) :
      s.gen = .inner py px → px < wrap64 (c.width * c.factor) →
      s.workers[i]? = some .receiving →
      c.sample ⟨px, py⟩ = some col → c.factor ≠ 0 →
      Step c s { s with
        gen := .inner py (wrap64 (px + c.factor))
        workers := s.workers.set i (.sending (c.mkPixel ⟨px, py⟩ col)) }
  | workerExit (s : State) (i : Nat) :
      s.gen = .closed → s.workers[i]? = some .receiving →
      Step c s { s with workers := s.workers.set i .done }
  | workerSend (s : State) (i : Nat) (px : pixel) :
      s.workers[i]? = some (.sending px) → s.pixels.length < c.workers.toNat →
      Step c s { s with
        workers := s.workers.set i .receiving
        pixels := s.pixels ++ [px] }
  | closePixels (s : State) :
      (∀ w ∈ s.workers, w = .done) → s.pixelsClosed = false →
      Step c s { s with pixelsClosed := true }
  | receive (s : State) (px : pixel) (rest : List pixel) :
      s.pixels = px :: rest →
      Step c s { s with pixels := rest, received := s.received ++ [px] }

/-- The states a run of the pipeline can be in. -/
def Reach (c : Config) (s : State) : Prop :=
  Relation.ReflTransGen (Step c) c.init s

/-- The run is over: the generator has closed `points`, every worker has
returned, `pixels` is closed and drained, so the consumer's `range` ends. -/
def Final (s : State) : Prop :=
  s.gen = .closed ∧ (∀ w ∈ s.workers, w = .done) ∧ s.pixelsClosed = true ∧ s.pixels = []

/-- `func compute(width, height, factor, workers int, smooth bool) <-chan *pixel`
as the pipeline whose workers call `superSampling`. -/
def compute {F : Type} (O : FloatOps F) (asUInt8 : Gradient F)
    (width height factor workers : Int) (smooth : Bool) : Config :=
  { width := width, height := height, factor := factor, workers := workers
    sample := fun p => superSampling O asUInt8 p width height factor smooth }

/-- The sequences `compute` can emit: what the consumer has received when the
run is over. -/
def Emits (c : Config) (out : List pixel) : Prop :=
  ∃ s, Reach c s ∧ Final s ∧ s.received = out

/-! ### Exact arithmetic -/

/-- The square root of `a*a + b*b` rounded down to a multiple of `2^-52`. -/
def exactHypot (a b : ℚ) : ℚ :=
  (Nat.sqrt (⌊(a * a + b * b) * 4 ^ 52⌋).toNat : ℚ) / 2 ^ 52

/-- Arithmetic without rounding on the rationals: every operation returns the
exact result (`hypot` to 52 binary places), `uint16` truncates.  The logarithm
is a parameter. -/
def exactOps (log : ℚ → ℚ) : FloatOps ℚ where
  ofRat q := q
  add a b := a + b
  sub a b := a - b
  mul a b := a * b
  div a b := a / b
  lt a b := decide (a < b)
  hypot := exactHypot
  log := log
  toUint16 q := Fin.ofNat (⌊q⌋).toNat

/-- The evaluation `superSampling` stores at index `idx` of `subPixels`:
`mandelbrot` at `(xCords[idx % factor], yCords[idx / factor])`, that is at the
mapped indices `p.x + idx % factor` and `p.y + idx / factor`. -/
def sampleAt {F : Type} (O : FloatOps F) (asUInt8 : Gradient F)
    (p : point) (width height factor : Int) (smooth : Bool) (idx : Nat) : Color :=
  mandelbrot O asUInt8
    ⟨xCord O (p.x + ((idx % factor.toNat : Nat) : Int)) width factor,
     yCord O (p.y + ((idx / factor.toNat : Nat) : Int)) height factor⟩ smooth

/-- A slice of `n` colors of which the first `k` are assigned, to the values
`cell`. -/
def filledUpTo (cell : Nat → Color) (n k : Nat) : List (Option Color) :=
  (List.range n).map (fun idx => if idx < k then some (cell idx) else none)

/-- The sum of the red channels `RGBA()` returns for the colors `cs`. -/
def redSum (cs : List Color) : Nat :=
  (cs.map (fun c => c.channels.1)).sum

/-- The sum of the green channels `RGBA()` returns for the colors `cs`. -/
def greenSum (cs : List Color) : Nat :=
  (cs.map (fun c => c.channels.2.1)).sum

/-- The sum of the blue channels `RGBA()` returns for the colors `cs`. -/
def blueSum (cs : List Color) : Nat :=
  (cs.map (fun c => c.channels.2.2.1)).sum

/-- A logarithm for the exact arithmetic of runs that never evaluate one
(the non-smooth mode, and points that do not escape). -/
def zeroLog : ℚ → ℚ :=
  fun _ => 0

/-- A gradient with one red level at the color position 15 and black
elsewhere. -/
def redAt15 : Gradient ℚ :=
  fun step _ _ => if step = 15 then (1, 0, 0) else (0, 0, 0)

end Mandelbrot

/-! ## Theorems about `match.go` -/

namespace GoMatch

theorem min_le_left (x y : Nat) : min x y ≤ x := by
  unfold min; split <;> omega

theorem min_le_right (x y : Nat) : min x y ≤ y := by
  unfold min; split <;> omega

theorem le_min_of_le (x y k : Nat) (hx : k ≤ x) (hy : k ≤ y) : k ≤ min x y := by
  unfold min; split <;> omega

/-- The loop of `cmp`, entered at index `i` with `matchLen = i` and the first
`i` bytes equal, stops at the first differing byte or at `minLen`, and never
indexes out of range. -/
theorem cmpLoop_spec (word key : GoString) :
    ∀ left i, i + left ≤ word.length → i + left ≤ key.length →
      (∀ j, j < i → word[j]? = key[j]?) →
      ∃ k, cmpLoop word key left i i = some k ∧ k ≤ i + left ∧
        (∀ j, j < k → word[j]? = key[j]?) ∧
        (k = i + left ∨ word[k]? ≠ key[k]?) := by
  intro left
  induction left with
  | zero =>
    intro i _ _ hpre
    exact ⟨i, rfl, le_refl _, hpre, Or.inl rfl⟩
  | succ left ih =>
    intro i hw hk hpre
    have hiw : i < word.length := by omega
    have hik : i < key.length := by omega
    have e1 : word[i]? = some word[i] := List.getElem?_eq_getElem hiw
    have e2 : key[i]? = some key[i] := List.getElem?_eq_getElem hik
    by_cases hne : word[i] = key[i]
    · have hpre2 : ∀ j, j < i + 1 → word[j]? = key[j]? := by
        intro j hj
        rcases Nat.lt_succ_iff_lt_or_eq.mp hj with h | h
        · exact hpre j h
        · subst h; rw [e1, e2, hne]
      obtain ⟨k, hk1, hk2, hk3, hk4⟩ := ih (i + 1) (by omega) (by omega) hpre2
      refine ⟨k, ?_, by omega, hk3, ?_⟩
      · simp only [cmpLoop, e1, e2, hne, ne_eq, not_true_eq_false, if_false]
        exact hk1
      · rcases hk4 with h | h
        · left; omega
        · right; exact h
    · refine ⟨i, ?_, by omega, hpre, Or.inr ?_⟩
      · simp only [cmpLoop, e1, e2, ne_eq, hne, not_false_eq_true, if_true]
      · rw [e1, e2]; simpa using hne

/-- Both paths of `cmp` return a length up to which the strings agree and at
which they stop agreeing. -/
theorem cmp_spec (word key : GoString) :
    ∃ k, cmp word key = some k ∧ k ≤ min word.length key.length ∧
      (∀ j, j < k → word[j]? = key[j]?) ∧
      (k = min word.length key.length ∨ word[k]? ≠ key[k]?) := by
  have h1 := min_le_left word.length key.length
  have h2 := min_le_right word.length key.length
  unfold cmp
  simp only [slicePrefix, h1, h2, if_true]
  by_cases hEq : word.take (min word.length key.length) = key.take (min word.length key.length)
  · refine ⟨min word.length key.length, by simp [hEq], le_refl _, ?_, Or.inl rfl⟩
    intro j hj
    have := congrArg (fun l => l[j]?) hEq
    simpa [List.getElem?_take, hj] using this
  · obtain ⟨k, hk1, hk2, hk3, hk4⟩ :=
      cmpLoop_spec word key (min word.length key.length) 0 (by omega) (by omega)
        (by intro j hj; omega)
    refine ⟨k, ?_, by omega, hk3, ?_⟩
    · simp only [hEq, if_false]; exact hk1
    · rcases hk4 with h | h
      · left; omega
      · right; exact h

/-- C10: for all strings `word` and `key`, `cmp` returns without a panic the
length `k` of their longest common prefix: `k` is at most both lengths, the
first `k` bytes agree, and every length with that property is at most `k`;
and `main` on its names and the key "Yury" yields (Yury, 4), (Yur, 3),
(Yu, 2) in that order. -/
theorem cmp_longest_common_prefix :
    (∀ word key : GoString, ∃ k, cmp word key = some k ∧
      k ≤ word.length ∧ k ≤ key.length ∧
      (∀ i, i < k → word[i]? = key[i]?) ∧
      (∀ k', k' ≤ word.length → k' ≤ key.length →
        (∀ i, i < k' → word[i]? = key[i]?) → k' ≤ k)) ∧
    main = some [⟨sYury, 4⟩, ⟨sYur, 3⟩, ⟨sYu, 2⟩] := by
  refine ⟨?_, by decide⟩
  intro word key
  obtain ⟨k, hk1, hk2, hk3, hk4⟩ := cmp_spec word key
  have h1 := min_le_left word.length key.length
  have h2 := min_le_right word.length key.length
  refine ⟨k, hk1, by omega, by omega, hk3, ?_⟩
  intro k' hw hk hagree
  rcases hk4 with h | h
  · have := le_min_of_le _ _ _ hw hk
    omega
  · by_contra hlt
    exact h (hagree k (by omega))

end GoMatch

/-! ## Theorems about `mandelbrot.go` -/

namespace Mandelbrot

/-! ### Integers -/

theorem wrap64_of_isInt64 {n : Int} (h : IsInt64 n) : wrap64 n = n := by
  unfold IsInt64 at h
  unfold wrap64
  omega

/-! ### Exact arithmetic is an implementation of the operations -/

theorem exactOps_ofRat (lg : ℚ → ℚ) (q : ℚ) : (exactOps lg).ofRat q = q := rfl
theorem exactOps_add (lg : ℚ → ℚ) (a b : ℚ) : (exactOps lg).add a b = a + b := rfl
theorem exactOps_sub (lg : ℚ → ℚ) (a b : ℚ) : (exactOps lg).sub a b = a - b := rfl
theorem exactOps_mul (lg : ℚ → ℚ) (a b : ℚ) : (exactOps lg).mul a b = a * b := rfl
theorem exactOps_div (lg : ℚ → ℚ) (a b : ℚ) : (exactOps lg).div a b = a / b := rfl
theorem exactOps_lt (lg : ℚ → ℚ) (a b : ℚ) : (exactOps lg).lt a b = decide (a < b) := rfl
theorem exactOps_hypot (lg : ℚ → ℚ) (a b : ℚ) : (exactOps lg).hypot a b = exactHypot a b := rfl

theorem exactOps_toUint16 (lg : ℚ → ℚ) (n : Nat) (h : n < 65536) :
    ((exactOps lg).toUint16 (n : ℚ)).val = n := by
  show (Fin.ofNat (⌊(n : ℚ)⌋).toNat : Fin 65536).val = n
  simp [Fin.ofNat, Nat.mod_eq_of_lt h]

/-- `exactHypot` exceeds 2 exactly when `a*a + b*b` reaches the square of the
next multiple of `2^-52` after 2. -/
theorem two_lt_exactHypot_iff (a b : ℚ) :
    2 < exactHypot a b ↔ ((2 ^ 53 + 1 : ℚ) / 2 ^ 52) ^ 2 ≤ a * a + b * b := by
  unfold exactHypot
  have hq : (0 : ℚ) ≤ (a * a + b * b) * 4 ^ 52 := by
    have := mul_self_nonneg a
    have := mul_self_nonneg b
    positivity
  have hfl : (0 : ℤ) ≤ ⌊(a * a + b * b) * 4 ^ 52⌋ := Int.floor_nonneg.mpr hq
  rw [lt_div_iff₀ (by positivity)]
  have e1 : (2 : ℚ) * 2 ^ 52 = ((2 ^ 53 : ℕ) : ℚ) := by norm_num
  rw [e1, Nat.cast_lt, Nat.lt_iff_add_one_le, Nat.le_sqrt']
  constructor
  · intro h
    have h2 : ((2 ^ 53 + 1) ^ 2 : ℤ) ≤ ⌊(a * a + b * b) * 4 ^ 52⌋ := by
      have := Int.toNat_of_nonneg hfl
      omega
    have h3 : (((2 ^ 53 + 1) ^ 2 : ℤ) : ℚ) ≤ (a * a + b * b) * 4 ^ 52 :=
      Int.le_floor.mp h2
    have h4 : ((2 ^ 53 + 1 : ℚ) / 2 ^ 52) ^ 2 * 4 ^ 52 ≤ (a * a + b * b) * 4 ^ 52 := by
      have e : ((2 ^ 53 + 1 : ℚ) / 2 ^ 52) ^ 2 * 4 ^ 52 = (((2 ^ 53 + 1) ^ 2 : ℤ) : ℚ) := by
        norm_num
      rw [e]; exact h3
    exact le_of_mul_le_mul_right h4 (by positivity)
  · intro h
    have h4 : (((2 ^ 53 + 1) ^ 2 : ℤ) : ℚ) ≤ (a * a + b * b) * 4 ^ 52 := by
      have e : ((2 ^ 53 + 1 : ℚ) / 2 ^ 52) ^ 2 * 4 ^ 52 = (((2 ^ 53 + 1) ^ 2 : ℤ) : ℚ) := by
        norm_num
      rw [← e]
      exact mul_le_mul_of_nonneg_right h (by positivity)
    have h2 : ((2 ^ 53 + 1) ^ 2 : ℤ) ≤ ⌊(a * a + b * b) * 4 ^ 52⌋ := Int.le_floor.mpr h4
    have := Int.toNat_of_nonneg hfl
    omega

end Mandelbrot

namespace Mandelbrot

/-! ### The escape loop -/

theorem escape_hit {F : Type} (O : FloatOps F) (z : Complex128 F) (smooth : Bool)
    (skip left n : Nat) (v : Complex128 F)
    (h : (O.lt (O.ofRat 2) (O.hypot (cadd O (cmul O v v) z).re (cadd O (cmul O v v) z).im)
      && decide (n > skip)) = true) :
    escape O z smooth skip (left + 1) n v =
      some (n, stepOf O smooth n
        (O.hypot (cadd O (cmul O v v) z).re (cadd O (cmul O v v) z).im)) := by
  simp only [escape, h, if_true]

theorem escape_miss {F : Type} (O : FloatOps F) (z : Complex128 F) (smooth : Bool)
    (skip left n : Nat) (v : Complex128 F)
    (h : (O.lt (O.ofRat 2) (O.hypot (cadd O (cmul O v v) z).re (cadd O (cmul O v v) z).im)
      && decide (n > skip)) = false) :
    escape O z smooth skip (left + 1) n v =
      escape O z smooth skip left (n + 1) (cadd O (cmul O v v) z) := by
  simp only [escape, h]
  rfl

/-- The escape branch is taken only at an index above `skip` and within the
iterations left, and the color position it computes is `stepOf` of that
index. -/
theorem escape_some {F : Type} (O : FloatOps F) (z : Complex128 F) (smooth : Bool)
    (skip : Nat) :
    ∀ (left n : Nat) (v : Complex128 F) (k : Nat) (step : F),
      escape O z smooth skip left n v = some (k, step) →
      n ≤ k ∧ k < n + left ∧ skip < k ∧ ∃ vAbs, step = stepOf O smooth k vAbs := by
  intro left
  induction left with
  | zero => intro n v k step h; simp [escape] at h
  | succ left ih =>
    intro n v k step h
    by_cases hc : (O.lt (O.ofRat 2)
        (O.hypot (cadd O (cmul O v v) z).re (cadd O (cmul O v v) z).im)
        && decide (n > skip)) = true
    · rw [escape_hit O z smooth skip left n v hc] at h
      simp only [Option.some.injEq, Prod.mk.injEq] at h
      obtain ⟨h1, h2⟩ := h
      subst h1
      simp only [Bool.and_eq_true, decide_eq_true_eq] at hc
      exact ⟨le_refl _, by omega, hc.2, _, h2.symm⟩
    · rw [escape_miss O z smooth skip left n v (by simpa using hc)] at h
      obtain ⟨h1, h2, h3, h4⟩ := ih (n + 1) _ k step h
      exact ⟨by omega, by omega, h3, h4⟩

/-- From the zero iterate and the zero point the loop never takes the escape
branch. -/
theorem escape_zero {F : Type} (O : FloatOps F) (smooth : Bool) (skip : Nat)
    (hmul : O.mul (O.ofRat 0) (O.ofRat 0) = O.ofRat 0)
    (hsub : O.sub (O.ofRat 0) (O.ofRat 0) = O.ofRat 0)
    (hadd : O.add (O.ofRat 0) (O.ofRat 0) = O.ofRat 0)
    (hhyp : O.hypot (O.ofRat 0) (O.ofRat 0) = O.ofRat 0)
    (hlt : O.lt (O.ofRat 2) (O.ofRat 0) = false) :
    ∀ left n, escape O ⟨O.ofRat 0, O.ofRat 0⟩ smooth skip left n ⟨O.ofRat 0, O.ofRat 0⟩ = none := by
  have hv : cadd O (cmul O ⟨O.ofRat 0, O.ofRat 0⟩ ⟨O.ofRat 0, O.ofRat 0⟩) ⟨O.ofRat 0, O.ofRat 0⟩
      = (⟨O.ofRat 0, O.ofRat 0⟩ : Complex128 F) := by
    simp only [cadd, cmul, hmul, hsub, hadd]
  intro left
  induction left with
  | zero => intro n; rfl
  | succ left ih =>
    intro n
    rw [escape_miss]
    · rw [hv]; exact ih (n + 1)
    · rw [hv]; simp only [hhyp, hlt, Bool.false_and]

/-- The color `mandelbrot` returns when the loop takes the escape branch. -/
theorem mandelbrot_of_escape_some {F : Type} (O : FloatOps F) (asUInt8 : Gradient F)
    (z : Complex128 F) (smooth : Bool) (k : Nat) (step : F)
    (h : escape O z smooth (if smooth then 2 else 0) iterations 0 ⟨O.ofRat 0, O.ofRat 0⟩
      = some (k, step)) :
    mandelbrot O asUInt8 z smooth =
      .RGBA (asUInt8 step (O.ofRat 0) (O.ofRat iterations)).1
        (asUInt8 step (O.ofRat 0) (O.ofRat iterations)).2.1
        (asUInt8 step (O.ofRat 0) (O.ofRat iterations)).2.2 255 := by
  unfold mandelbrot
  simp only [h]

/-- The color `mandelbrot` returns when the loop runs to its end. -/
theorem mandelbrot_of_escape_none {F : Type} (O : FloatOps F) (asUInt8 : Gradient F)
    (z : Complex128 F) (smooth : Bool)
    (h : escape O z smooth (if smooth then 2 else 0) iterations 0 ⟨O.ofRat 0, O.ofRat 0⟩
      = none) :
    mandelbrot O asUInt8 z smooth = Color.Black := by
  unfold mandelbrot
  simp only [h]

theorem iterations_cast : ((iterations : ℕ) : ℚ) = 255 := by
  norm_num [iterations]

end Mandelbrot

namespace Mandelbrot

/-! ### The escape evaluator: claims C3, C6, C7 -/

/-- C7: at the point 0+0i, in both modes, the loop of `mandelbrot` never takes
the escape branch, whatever the index and the iterations left (the iterate
stays 0 and its magnitude 0 does not exceed 2), and `mandelbrot` returns
`color.Black`; the arithmetic facts used are that `0*0`, `0-0`, `0+0` and
`Hypot(0, 0)` are 0 and that `0 > 2` is false. -/
theorem mandelbrot_origin_black {F : Type} (O : FloatOps F) (asUInt8 : Gradient F)
    (smooth : Bool)
    (hmul : O.mul (O.ofRat 0) (O.ofRat 0) = O.ofRat 0)
    (hsub : O.sub (O.ofRat 0) (O.ofRat 0) = O.ofRat 0)
    (hadd : O.add (O.ofRat 0) (O.ofRat 0) = O.ofRat 0)
    (hhyp : O.hypot (O.ofRat 0) (O.ofRat 0) = O.ofRat 0)
    (hlt : O.lt (O.ofRat 2) (O.ofRat 0) = false) :
    (∀ skip left n,
      escape O ⟨O.ofRat 0, O.ofRat 0⟩ smooth skip left n ⟨O.ofRat 0, O.ofRat 0⟩ = none) ∧
    mandelbrot O asUInt8 ⟨O.ofRat 0, O.ofRat 0⟩ smooth = Color.Black := by
  exact ⟨fun skip => escape_zero O smooth skip hmul hsub hadd hhyp hlt,
    mandelbrot_of_escape_none O asUInt8 _ smooth
      (escape_zero O smooth _ hmul hsub hadd hhyp hlt _ _)⟩

theorem exactHypot_zero : exactHypot 0 0 = 0 := by
  simp [exactHypot]

theorem mandelbrot_origin_black_witness :
    mandelbrot (exactOps zeroLog) redAt15 ⟨0, 0⟩ true = Color.Black ∧
    mandelbrot (exactOps zeroLog) redAt15 ⟨0, 0⟩ false = Color.Black :=
  ⟨(mandelbrot_origin_black (exactOps zeroLog) redAt15 true
      (by norm_num [exactOps]) (by norm_num [exactOps]) (by norm_num [exactOps])
      exactHypot_zero (by norm_num [exactOps])).2,
   (mandelbrot_origin_black (exactOps zeroLog) redAt15 false
      (by norm_num [exactOps]) (by norm_num [exactOps]) (by norm_num [exactOps])
      exactHypot_zero (by norm_num [exactOps])).2⟩

/-- C3 (what the code does): in non-smooth mode, when `mandelbrot` takes the
escape branch at index `k`, then `1 ≤ k < 255` and the color position passed
to `htcmap.AsUInt8` with the range 0, 255 is the `uint8` product
`(k * 15) mod 256`, which from `k = 18` on is below 256 while `k × 15` is at
least 270. -/
theorem mandelbrot_plain_step_wraps {F : Type} (O : FloatOps F) (asUInt8 : Gradient F)
    (z : Complex128 F) (k : Nat) (step : F)
    (h : escape O z false 0 iterations 0 ⟨O.ofRat 0, O.ofRat 0⟩ = some (k, step)) :
    1 ≤ k ∧ k < 255 ∧ step = O.ofRat ((k * 15 % 256 : Nat) : ℚ) ∧
    mandelbrot O asUInt8 z false =
      .RGBA (asUInt8 step (O.ofRat 0) (O.ofRat iterations)).1
        (asUInt8 step (O.ofRat 0) (O.ofRat iterations)).2.1
        (asUInt8 step (O.ofRat 0) (O.ofRat iterations)).2.2 255 ∧
    (18 ≤ k → k * 15 % 256 < 256 ∧ 270 ≤ k * 15) := by
  obtain ⟨_, h2, h3, vAbs, h4⟩ := escape_some O z false 0 iterations 0 _ k step h
  refine ⟨h3, by simpa [iterations] using h2, ?_, ?_, fun hk => ⟨Nat.mod_lt _ (by norm_num), by omega⟩⟩
  · rw [h4]; simp [stepOf, plainStep, contrast]
  · exact mandelbrot_of_escape_some O asUInt8 z false k step h

/-- The point `xmin + ymin i` escapes at index 1 in exact arithmetic: the
first iterate is the point itself, which index 0 does not test, and the
second, `1.2 + 4.08i`, has a magnitude above 2. -/
theorem escape_corner (lg : ℚ → ℚ) :
    escape (exactOps lg) ⟨xmin, ymin⟩ false 0 iterations 0
      ⟨(exactOps lg).ofRat 0, (exactOps lg).ofRat 0⟩ = some (1, (exactOps lg).ofRat 15) := by
  have e : iterations = 253 + 1 + 1 := rfl
  rw [e, escape_miss _ _ _ _ _ _ _ (by simp), escape_hit]
  · simp [stepOf, plainStep, contrast, exactOps]
  · simp only [exactOps_ofRat, exactOps_lt, exactOps_hypot, cadd, cmul, exactOps_add,
      exactOps_sub, exactOps_mul, Bool.and_eq_true, decide_eq_true_eq]
    refine ⟨?_, by norm_num⟩
    rw [two_lt_exactHypot_iff]
    norm_num [xmin, ymin]

theorem mandelbrot_plain_step_wraps_witness :
    escape (exactOps zeroLog) ⟨xmin, ymin⟩ false 0 iterations 0
      ⟨(exactOps zeroLog).ofRat 0, (exactOps zeroLog).ofRat 0⟩ =
      some (1, (exactOps zeroLog).ofRat 15) ∧
    (exactOps zeroLog).ofRat 15 = (exactOps zeroLog).ofRat ((1 * 15 % 256 : Nat) : ℚ) :=
  ⟨escape_corner zeroLog,
   (mandelbrot_plain_step_wraps (exactOps zeroLog) redAt15 ⟨xmin, ymin⟩ 1
      ((exactOps zeroLog).ofRat 15) (escape_corner zeroLog)).2.2.1⟩

end Mandelbrot

namespace Mandelbrot

/-! ### The coordinate mapper at index 0: claims C9 and C6 -/

/-- C9: when the products `width*factor` and `height*factor` the mapper
divides by are positive, `xCord(0, width, factor)` is `xmin` = -2.2 and
`yCord(0, height, factor)` is `ymin` = -1.2, as converted to `float64`; the
arithmetic facts used are that `0/n` is 0 for a positive integer `n`, that
`0*c` is 0 for a constant `c` between 0 and 4, and that `0 + a` is `a`. -/
theorem cord_zero_is_min {F : Type} (O : FloatOps F) (width height factor : Int)
    (hw : 0 < wrap64 (width * factor)) (hh : 0 < wrap64 (height * factor))
    (hdiv : ∀ n : Int, 0 < n → O.div (O.ofRat 0) (O.ofRat n) = O.ofRat 0)
    (hmul : ∀ q : ℚ, 0 ≤ q → q ≤ 4 → O.mul (O.ofRat 0) (O.ofRat q) = O.ofRat 0)
    (hadd : ∀ a : F, O.add (O.ofRat 0) a = a) :
    xCord O 0 width factor = O.ofRat xmin ∧ yCord O 0 height factor = O.ofRat ymin ∧
    xmin = -22 / 10 ∧ ymin = -12 / 10 := by
  refine ⟨?_, ?_, rfl, rfl⟩
  · unfold xCord
    rw [Int.cast_zero, hdiv _ hw, hmul _ (by norm_num [xmax, xmin]) (by norm_num [xmax, xmin]),
      hadd]
  · unfold yCord
    rw [Int.cast_zero, hdiv _ hh, hmul _ (by norm_num [ymax, ymin]) (by norm_num [ymax, ymin]),
      hadd]

theorem cord_zero_is_min_witness :
    0 < wrap64 (4 * 1) ∧
    xCord (exactOps zeroLog) 0 4 1 = -22 / 10 ∧ yCord (exactOps zeroLog) 0 4 1 = -12 / 10 := by
  have h := cord_zero_is_min (exactOps zeroLog) 4 4 1 (by decide) (by decide)
    (fun n _ => by simp [exactOps]) (fun q _ _ => by simp [exactOps])
    (fun a => by simp [exactOps])
  exact ⟨by decide, h.1.trans h.2.2.1, h.2.1.trans h.2.2.2⟩

/-- C6 (as amended): with width 4, height 4 and factor 1, pixel (0,0) maps to
`xmin + ymin i` = -2.2 - 1.2i, and in exact arithmetic `mandelbrot` in
non-smooth mode takes the escape branch there at index 1 and returns the
gradient color of position 15 with alpha 255, for every gradient. -/
theorem corner_pixel_escapes :
    ∀ (lg : ℚ → ℚ) (asUInt8 : Gradient ℚ),
      xCord (exactOps lg) 0 4 1 = xmin ∧ yCord (exactOps lg) 0 4 1 = ymin ∧
      escape (exactOps lg) ⟨xmin, ymin⟩ false 0 iterations 0
        ⟨(exactOps lg).ofRat 0, (exactOps lg).ofRat 0⟩ = some (1, (exactOps lg).ofRat 15) ∧
      mandelbrot (exactOps lg) asUInt8
          ⟨xCord (exactOps lg) 0 4 1, yCord (exactOps lg) 0 4 1⟩ false =
        .RGBA (asUInt8 15 0 255).1 (asUInt8 15 0 255).2.1 (asUInt8 15 0 255).2.2 255 := by
  intro lg asUInt8
  have hx : xCord (exactOps lg) 0 4 1 = xmin := by simp [xCord, exactOps]
  have hy : yCord (exactOps lg) 0 4 1 = ymin := by simp [yCord, exactOps]
  refine ⟨hx, hy, escape_corner lg, ?_⟩
  rw [hx, hy, mandelbrot_of_escape_some _ asUInt8 _ false 1 _ (escape_corner lg)]
  simp only [exactOps_ofRat, iterations_cast]

/-- C6 (as stated) fails: the color of pixel (0,0) is not `color.Black`. -/
theorem corner_pixel_not_black :
    mandelbrot (exactOps zeroLog) redAt15
      ⟨xCord (exactOps zeroLog) 0 4 1, yCord (exactOps zeroLog) 0 4 1⟩ false ≠ Color.Black := by
  rw [(corner_pixel_escapes zeroLog redAt15).2.2.2]
  simp [Color.Black]

end Mandelbrot

namespace Mandelbrot

/-! ### The super-sampler with factor 1: claim C5 -/

/-- Every channel `RGBA()` returns is a 16 bit value. -/
theorem channels_lt (c : Color) :
    c.channels.1 < 65536 ∧ c.channels.2.1 < 65536 ∧ c.channels.2.2.1 < 65536 ∧
    c.channels.2.2.2 < 65536 := by
  cases c with
  | RGBA r g b a =>
    have := r.isLt; have := g.isLt; have := b.isLt; have := a.isLt
    simp only [Color.channels]; omega
  | RGBA64 r g b a =>
    have := r.isLt; have := g.isLt; have := b.isLt; have := a.isLt
    simp only [Color.channels]; omega
  | Gray16 y =>
    have := y.isLt
    simp only [Color.channels]; omega

/-- The colors `mandelbrot` returns are opaque. -/
theorem mandelbrot_alpha {F : Type} (O : FloatOps F) (asUInt8 : Gradient F)
    (z : Complex128 F) (smooth : Bool) :
    (mandelbrot O asUInt8 z smooth).channels.2.2.2 = 65535 := by
  cases h : escape O z smooth (if smooth then 2 else 0) iterations 0
      ⟨O.ofRat 0, O.ofRat 0⟩ with
  | none => rw [mandelbrot_of_escape_none O asUInt8 z smooth h]; rfl
  | some ks =>
    obtain ⟨k, step⟩ := ks
    rw [mandelbrot_of_escape_some O asUInt8 z smooth k step h]; rfl

/-- With factor 1 the loops of `superSampling` store one evaluation, at the
pixel's own coordinate. -/
theorem subSamples_one {F : Type} (O : FloatOps F) (asUInt8 : Gradient F)
    (p : point) (width height : Int) (smooth : Bool)
    (hx : IsInt64 p.x) (hy : IsInt64 p.y) :
    subSamples O asUInt8 p width height 1 smooth =
      some [some (mandelbrot O asUInt8
        ⟨xCord O p.x width 1, yCord O p.y height 1⟩ smooth)] := by
  have h1 : ¬ ((1 : ℤ) < 0 ∨ wrap64 (1 * 1) < 0) := by decide
  have h2 : wrap64 (1 * 1) = 1 := by decide
  have h3 : wrap64 (wrap64 (((0 : ℕ) : ℤ) * 1) + ((0 : ℕ) : ℤ)) = 0 := by decide
  unfold subSamples
  rw [if_neg h1]
  have hr : List.range 1 = [0] := rfl
  simp only [h2, Int.toNat_one, hr, List.map_cons, List.map_nil, Nat.cast_zero,
    add_zero, wrap64_of_isInt64 hx, wrap64_of_isInt64 hy, List.replicate_one,
    List.foldlM_cons, List.foldlM_nil, storeSub, h3]
  have h4 : wrap64 (wrap64 0) = 0 := by decide
  simp [h4]

/-- C5: `superSampling(p, width, height, 1, smooth)` returns, without a panic,
a color whose red, green, blue and alpha channels are those of the direct
call `mandelbrot(complex(xCord(p.x, width, 1), yCord(p.y, height, 1)), smooth)`;
the arithmetic facts used are that `n/1` is `n` and `0 + a` is `a`, and that
`uint16` of a 16 bit integer is that integer. -/
theorem superSampling_factor_one {F : Type} (O : FloatOps F) (asUInt8 : Gradient F)
    (p : point) (width height : Int) (smooth : Bool)
    (hx : IsInt64 p.x) (hy : IsInt64 p.y)
    (hdiv : ∀ n : ℕ, n < 65536 → O.div (O.ofRat n) (O.ofRat 1) = O.ofRat n)
    (hadd : ∀ a : F, O.add (O.ofRat 0) a = a)
    (hconv : ∀ n : ℕ, n < 65536 → (O.toUint16 (O.ofRat n)).val = n) :
    ∃ c, superSampling O asUInt8 p width height 1 smooth = some c ∧
      c.channels = (mandelbrot O asUInt8
        ⟨xCord O p.x width 1, yCord O p.y height 1⟩ smooth).channels := by
  have h2 : wrap64 (1 * 1) = 1 := by decide
  unfold superSampling
  rw [subSamples_one O asUInt8 p width height smooth hx hy]
  have ha := mandelbrot_alpha O asUInt8 ⟨xCord O p.x width 1, yCord O p.y height 1⟩ smooth
  generalize mandelbrot O asUInt8 ⟨xCord O p.x width 1, yCord O p.y height 1⟩ smooth = m at ha ⊢
  obtain ⟨c1, c2, c3, _⟩ := channels_lt m
  simp only [average, List.foldlM_cons, List.foldlM_nil, accumulate, h2, Int.cast_one,
    hdiv _ c1, hdiv _ c2, hdiv _ c3, hadd]
  refine ⟨_, rfl, ?_⟩
  show ((O.toUint16 (O.ofRat m.channels.1)).val, (O.toUint16 (O.ofRat m.channels.2.1)).val,
    (O.toUint16 (O.ofRat m.channels.2.2.1)).val, 65535) = m.channels
  rw [hconv _ c1, hconv _ c2, hconv _ c3]
  exact Prod.ext rfl (Prod.ext rfl (Prod.ext rfl ha.symm))

theorem superSampling_factor_one_witness :
    IsInt64 3 ∧
    ∃ c, superSampling (exactOps zeroLog) redAt15 ⟨3, 2⟩ 4 4 1 false = some c ∧
      c.channels = (mandelbrot (exactOps zeroLog) redAt15
        ⟨xCord (exactOps zeroLog) 3 4 1, yCord (exactOps zeroLog) 2 4 1⟩ false).channels :=
  ⟨by decide,
   superSampling_factor_one (exactOps zeroLog) redAt15 ⟨3, 2⟩ 4 4 false
     (by decide) (by decide)
     (fun n _ => by simp [exactOps]) (fun a => by simp [exactOps])
     (fun n hn => exactOps_toUint16 zeroLog n hn)⟩

end Mandelbrot

namespace Mandelbrot

/-! ### The loops of the super-sampler -/

theorem filledUpTo_length (cell : Nat → Color) (n k : Nat) :
    (filledUpTo cell n k).length = n := by
  simp [filledUpTo]

theorem filledUpTo_zero (cell : Nat → Color) (n : Nat) :
    filledUpTo cell n 0 = List.replicate n none := by
  apply List.ext_getElem
  · simp [filledUpTo]
  · intro i h1 h2
    simp [filledUpTo]

theorem filledUpTo_set (cell : Nat → Color) (n k : Nat) :
    (filledUpTo cell n k).set k (some (cell k)) = filledUpTo cell n (k + 1) := by
  apply List.ext_getElem
  · simp [filledUpTo]
  · intro i h1 h2
    simp only [filledUpTo, List.getElem_set, List.getElem_map, List.getElem_range]
    by_cases hik : k = i
    · subst hik; simp
    · simp only [hik, if_false]
      by_cases hlt : i < k
      · have : i < k + 1 := by omega
        simp [hlt, this]
      · have : ¬ i < k + 1 := by omega
        simp [hlt, this]

theorem foldlM_range_succ {α : Type} (g : α → Nat → Option α) (init : α) (n : Nat) :
    (List.range (n + 1)).foldlM g init = ((List.range n).foldlM g init).bind (fun s => g s n) := by
  rw [List.range_succ, List.foldlM_append]
  simp only [List.foldlM_cons, List.foldlM_nil]
  cases (List.foldlM g init (List.range n)) with
  | none => rfl
  | some s =>
    simp only [bind, Option.bind]
    cases g s n <;> rfl

/-- A counted loop whose body advances a state indexed by the position runs
the state from `a` to `a + n`. -/
theorem foldlM_range_advance {α : Type} (g : α → Nat → Option α) (st : Nat → α) (a : Nat) :
    ∀ n, (∀ j, j < n → g (st (a + j)) j = some (st (a + j + 1))) →
      (List.range n).foldlM g (st a) = some (st (a + n)) := by
  intro n
  induction n with
  | zero => intro _; rfl
  | succ n ih =>
    intro h
    rw [foldlM_range_succ, ih (fun j hj => h j (by omega))]
    exact h n (by omega)

end Mandelbrot

namespace Mandelbrot

theorem wrap64_natCast (n : Nat) (h : (n : Int) < 2 ^ 63) : wrap64 (n : Int) = n := by
  apply wrap64_of_isInt64
  unfold IsInt64
  omega

theorem cell_index_lt (f iy ix : Nat) (hiy : iy < f) (hix : ix < f) : iy * f + ix < f * f := by
  have h1 : (iy + 1) * f ≤ f * f := Nat.mul_le_mul_right f hiy
  have h2 : (iy + 1) * f = iy * f + f := by ring
  omega

/-- One assignment of the nested loops, with the cells before it assigned,
assigns the next cell. -/
theorem storeSub_filled {F : Type} (O : FloatOps F) (asUInt8 : Gradient F)
    (p : point) (width height : Int) (smooth : Bool) (f : Nat)
    (hff : ((f * f : Nat) : Int) < 2 ^ 63)
    (hx : IsInt64 p.x) (hxf : IsInt64 (p.x + f)) (hy : IsInt64 p.y) (hyf : IsInt64 (p.y + f))
    (iy ix : Nat) (hiy : iy < f) (hix : ix < f) :
    storeSub O asUInt8 smooth f
        ((List.range f).map (fun (i : Nat) => xCord O (wrap64 (p.x + (i : Int))) width f))
        ((List.range f).map (fun (i : Nat) => yCord O (wrap64 (p.y + (i : Int))) height f))
        iy ix
        (filledUpTo (sampleAt O asUInt8 p width height f smooth) (f * f) (iy * f + ix)) =
      some (filledUpTo (sampleAt O asUInt8 p width height f smooth) (f * f) (iy * f + ix + 1)) := by
  have hlt := cell_index_lt f iy ix hiy hix
  have hiyf : iy * f ≤ iy * f + ix := Nat.le_add_right _ _
  have e1 : wrap64 ((iy : Int) * (f : Int)) = ((iy * f : Nat) : Int) := by
    rw [← Nat.cast_mul]
    exact wrap64_natCast _ (by omega)
  have e2 : wrap64 (((iy * f : Nat) : Int) + (ix : Int)) = ((iy * f + ix : Nat) : Int) := by
    rw [← Nat.cast_add]
    exact wrap64_natCast _ (by omega)
  have ex : wrap64 (p.x + (ix : Int)) = p.x + ix := by
    apply wrap64_of_isInt64
    unfold IsInt64 at *
    omega
  have ey : wrap64 (p.y + (iy : Int)) = p.y + iy := by
    apply wrap64_of_isInt64
    unfold IsInt64 at *
    omega
  have hmod : (iy * f + ix) % f = ix := by
    rw [Nat.add_comm, Nat.add_mul_mod_self_right, Nat.mod_eq_of_lt hix]
  have hdivv : (iy * f + ix) / f = iy := by
    rw [Nat.add_comm, Nat.add_mul_div_right _ _ (by omega), Nat.div_eq_of_lt hix, Nat.zero_add]
  have hcell : sampleAt O asUInt8 p width height f smooth (iy * f + ix) =
      mandelbrot O asUInt8 ⟨xCord O (p.x + ix) width f, yCord O (p.y + iy) height f⟩ smooth := by
    simp only [sampleAt, Int.toNat_ofNat, hmod, hdivv]
  unfold storeSub
  simp only [List.getElem?_map, List.getElem?_range hix, List.getElem?_range hiy, Option.map_some',
    e1, e2, ex, ey, filledUpTo_length, Int.toNat_ofNat, Nat.cast_nonneg, hlt, true_and, and_self,
    if_true, ← hcell, filledUpTo_set]

/-- The nested loops of `superSampling` assign every cell of `subPixels`: the
cell at index `idx` holds the evaluation at `(xCords[idx % f], yCords[idx / f])`. -/
theorem subSamples_grid {F : Type} (O : FloatOps F) (asUInt8 : Gradient F)
    (p : point) (width height : Int) (smooth : Bool) (f : Nat)
    (hff : ((f * f : Nat) : Int) < 2 ^ 63)
    (hx : IsInt64 p.x) (hxf : IsInt64 (p.x + f)) (hy : IsInt64 p.y) (hyf : IsInt64 (p.y + f)) :
    subSamples O asUInt8 p width height f smooth =
      some ((List.range (f * f)).map
        (fun idx => some (sampleAt O asUInt8 p width height f smooth idx))) := by
  have hw : wrap64 ((f : Int) * (f : Int)) = ((f * f : Nat) : Int) := by
    rw [← Nat.cast_mul]
    exact wrap64_natCast _ hff
  have h1 : ¬ ((f : Int) < 0 ∨ wrap64 ((f : Int) * (f : Int)) < 0) := by
    rw [hw]; omega
  unfold subSamples
  rw [if_neg h1]
  simp only [hw, Int.toNat_ofNat, ← filledUpTo_zero (sampleAt O asUInt8 p width height f smooth)]
  have outer := foldlM_range_advance
    (fun sub iy => (List.range f).foldlM
      (fun sub ix => storeSub O asUInt8 smooth f
        ((List.range f).map (fun (i : Nat) => xCord O (wrap64 (p.x + (i : Int))) width f))
        ((List.range f).map (fun (i : Nat) => yCord O (wrap64 (p.y + (i : Int))) height f))
        iy ix sub) sub)
    (fun k => filledUpTo (sampleAt O asUInt8 p width height f smooth) (f * f) (k * f)) 0 f
    (by
      intro iy hiy
      have inner := foldlM_range_advance
        (fun sub ix => storeSub O asUInt8 smooth f
          ((List.range f).map (fun (i : Nat) => xCord O (wrap64 (p.x + (i : Int))) width f))
          ((List.range f).map (fun (i : Nat) => yCord O (wrap64 (p.y + (i : Int))) height f))
          iy ix sub)
        (fun k => filledUpTo (sampleAt O asUInt8 p width height f smooth) (f * f) k)
        (iy * f) f
        (fun ix hix => storeSub_filled O asUInt8 p width height smooth f hff hx hxf hy hyf
          iy ix hiy hix)
      have e : iy * f + f = (iy + 1) * f := by ring
      simp only [Nat.zero_add] at inner ⊢
      rw [inner, e])
  simp only [Nat.zero_add, Nat.zero_mul] at outer
  rw [outer]
  apply congrArg some
  apply List.ext_getElem
  · simp [filledUpTo]
  · intro i h2 h3
    simp only [filledUpTo, List.length_map, List.length_range] at h2
    simp [filledUpTo, h2]

end Mandelbrot

namespace Mandelbrot

/-! ### The averaging loop -/

theorem redSum_le (cs : List Color) : redSum cs ≤ 65535 * cs.length := by
  induction cs with
  | nil => simp [redSum]
  | cons c cs ih =>
    have := (channels_lt c).1
    simp only [redSum, List.map_cons, List.sum_cons, List.length_cons] at ih ⊢
    omega

theorem greenSum_le (cs : List Color) : greenSum cs ≤ 65535 * cs.length := by
  induction cs with
  | nil => simp [greenSum]
  | cons c cs ih =>
    have := (channels_lt c).2.1
    simp only [greenSum, List.map_cons, List.sum_cons, List.length_cons] at ih ⊢
    omega

theorem blueSum_le (cs : List Color) : blueSum cs ≤ 65535 * cs.length := by
  induction cs with
  | nil => simp [blueSum]
  | cons c cs ih =>
    have := (channels_lt c).2.2.1
    simp only [blueSum, List.map_cons, List.sum_cons, List.length_cons] at ih ⊢
    omega

/-- The averaging loop never panics on a slice whose cells are all assigned. -/
theorem foldlM_accumulate_isSome {F : Type} (O : FloatOps F) (factor2 : F) :
    ∀ (cs : List Color) (acc : F × F × F),
      ∃ r, (cs.map some).foldlM (accumulate O factor2) acc = some r := by
  intro cs
  induction cs with
  | nil => intro acc; exact ⟨acc, rfl⟩
  | cons c cs ih =>
    intro acc
    simp only [List.map_cons, List.foldlM_cons, accumulate, Option.bind_eq_bind,
      Option.some_bind]
    exact ih _

/-- When the quotients by `d` and their sums are exact, the averaging loop
holds the exact running sums over `d`. -/
theorem foldlM_accumulate_exact {F : Type} (O : FloatOps F) (d : Nat)
    (hdiv : ∀ n : ℕ, n < 65536 → O.div (O.ofRat n) (O.ofRat d) = O.ofRat ((n : ℚ) / d))
    (hadd : ∀ m n : ℕ, m + n ≤ 65535 * d →
      O.add (O.ofRat ((m : ℚ) / d)) (O.ofRat ((n : ℚ) / d)) = O.ofRat (((m + n : ℕ) : ℚ) / d)) :
    ∀ (cs : List Color) (a b c : Nat),
      a + redSum cs ≤ 65535 * d → b + greenSum cs ≤ 65535 * d → c + blueSum cs ≤ 65535 * d →
      (cs.map some).foldlM (accumulate O (O.ofRat d))
          (O.ofRat ((a : ℚ) / d), O.ofRat ((b : ℚ) / d), O.ofRat ((c : ℚ) / d)) =
        some (O.ofRat (((a + redSum cs : ℕ) : ℚ) / d),
          O.ofRat (((b + greenSum cs : ℕ) : ℚ) / d),
          O.ofRat (((c + blueSum cs : ℕ) : ℚ) / d)) := by
  intro cs
  induction cs with
  | nil => intro a b c _ _ _; simp [redSum, greenSum, blueSum]
  | cons col cs ih =>
    intro a b c ha hb hc
    obtain ⟨c1, c2, c3, _⟩ := channels_lt col
    have r1 : redSum (col :: cs) = col.channels.1 + redSum cs := by simp [redSum]
    have r2 : greenSum (col :: cs) = col.channels.2.1 + greenSum cs := by simp [greenSum]
    have r3 : blueSum (col :: cs) = col.channels.2.2.1 + blueSum cs := by simp [blueSum]
    rw [r1] at ha ⊢
    rw [r2] at hb ⊢
    rw [r3] at hc ⊢
    simp only [List.map_cons, List.foldlM_cons, accumulate, Option.bind_eq_bind,
      Option.some_bind, hdiv _ c1, hdiv _ c2, hdiv _ c3]
    rw [hadd a _ (by omega), hadd b _ (by omega), hadd c _ (by omega)]
    rw [ih _ _ _ (by omega) (by omega) (by omega)]
    simp only [Nat.add_assoc]

end Mandelbrot
